import Mathlib

/-!
Shallow embedding of the dexter-x402 facilitator core (src/unnamed/part_001).

The embedding covers the amount codec (`safeParseAtomic`, `formatAtomicAmount`),
the asset resolver (`resolveAssetInfo`), the settlement-window aggregator
(`pruneSettlementWindow`, `recordSettlement`), the per-network signer cache
(`getSigner`), and the settlement-event path of the `/settle` route.

Modelling conventions:
* JavaScript `bigint` values are `Int`; finite JavaScript numbers are exact
  rationals `ℚ` (every finite IEEE double is a rational, `Math.trunc` is
  truncation toward zero, and `BigInt` of an integral double is exact);
  non-finite numbers are distinguished constructors.
* JavaScript strings are Lean `String` / `List Char`; `trim` is modelled on the
  ASCII whitespace characters (the inputs of interest contain no Unicode
  whitespace); decimal rendering of `bigint`/integer `number` values is
  modelled by an executable base-10 renderer.
* The mutable module state (settlement window array, signer cache `Map`) is
  passed explicitly; the JavaScript `Map` keeps insertion order, so it is an
  association list with append-on-miss.
* Exceptions caught by the source (`try`/`catch` in `safeParseAtomic`) are
  modelled by `Option`.
-/

namespace DexterX402

/-! ## Decimal digit rendering (JavaScript `BigInt.prototype.toString`) -/

/-- Big-endian decimal digit list of a natural number, with explicit fuel so
that the definition is structural and kernel-reducible.  One recursive step
per digit; `natDigits` supplies ample fuel. -/
def natDigitsAux : Nat → Nat → List Char
  | 0, _ => []
  | fuel + 1, n =>
    if n < 10 then [Nat.digitChar n]
    else natDigitsAux fuel (n / 10) ++ [Nat.digitChar (n % 10)]

/-- Decimal digit characters of `n`, most significant first; `"0"` for zero.
This is the rendering `BigInt.prototype.toString` (radix 10) produces. -/
def natDigits (n : Nat) : List Char := natDigitsAux (n + 1) n

/-- Numeric value of a decimal digit character. -/
def digitVal (c : Char) : Nat := c.toNat - 48

/-- Value of a big-endian decimal digit list. -/
def digitsVal (l : List Char) : Nat :=
  l.foldl (fun acc c => acc * 10 + digitVal c) 0

/-- Decimal rendering of a JavaScript `bigint`: a leading minus sign on
negative values, digits of the absolute value otherwise. -/
def intReprChars (n : Int) : List Char :=
  if n < 0 then '-' :: natDigits (-n).toNat else natDigits n.toNat

/-- String form of `intReprChars`. -/
def intRepr (n : Int) : String := String.mk (intReprChars n)

/-! ## Character classes used by the codec -/

/-- Decimal digit test. -/
def isDigitChar (c : Char) : Bool := decide ('0' ≤ c ∧ c ≤ '9')

/-- ASCII whitespace stripped by `String.prototype.trim`.  (JavaScript also
strips Unicode whitespace; the strings handled by the facilitator are ASCII,
so the model restricts to the ASCII whitespace set.) -/
def isJsWhitespace (c : Char) : Bool :=
  decide (c = ' ' ∨ c = '\t' ∨ c = '\n' ∨ c = '\r' ∨ c = '\x0b' ∨ c = '\x0c')

/-- JavaScript `trim`: drop whitespace from both ends. -/
def jsTrim (l : List Char) : List Char :=
  ((l.dropWhile isJsWhitespace).reverse.dropWhile isJsWhitespace).reverse

/-! ## Model of the JavaScript `BigInt(string)` conversion -/

/-- Nonempty all-decimal-digit strings evaluate to their decimal value;
anything else is a conversion error. -/
def parseDigits (l : List Char) : Option Nat :=
  if l ≠ [] ∧ l.all isDigitChar = true then some (digitsVal l) else none

/-- Value of a character as a digit in radix up to 16, if it is one. -/
def radixDigitVal (c : Char) : Option Nat :=
  if '0' ≤ c ∧ c ≤ '9' then some (c.toNat - 48)
  else if 'a' ≤ c ∧ c ≤ 'f' then some (c.toNat - 87)
  else if 'A' ≤ c ∧ c ≤ 'F' then some (c.toNat - 55)
  else none

/-- Value of a big-endian digit list in the given radix. -/
def radixVal (base : Nat) (l : List Char) : Nat :=
  l.foldl (fun acc c => acc * base + (radixDigitVal c).getD 0) 0

/-- Nonempty digit strings of the given radix evaluate to their value. -/
def parseRadix (base : Nat) (l : List Char) : Option Nat :=
  if l ≠ [] ∧ l.all (fun c =>
      match radixDigitVal c with
      | some v => decide (v < base)
      | none => false) = true
  then some (radixVal base l) else none

/-- JavaScript `BigInt(string)` on an already-trimmed string: an optional
single sign followed by decimal digits, or an unsigned `0x`/`0o`/`0b` radix
form; everything else throws (modelled as `none`).  A sign combined with a
radix prefix throws, which the sign branches reproduce because `x`, `o`, `b`
are not decimal digits. -/
def parseBigInt (l : List Char) : Option Int :=
  match l with
  | [] => (parseDigits []).map Int.ofNat
  | c :: rest =>
    if c = '+' then (parseDigits rest).map Int.ofNat
    else if c = '-' then (parseDigits rest).map (fun n => -Int.ofNat n)
    else if c = '0' then
      match rest with
      | [] => (parseDigits l).map Int.ofNat
      | c2 :: rest2 =>
        if c2 = 'x' ∨ c2 = 'X' then (parseRadix 16 rest2).map Int.ofNat
        else if c2 = 'o' ∨ c2 = 'O' then (parseRadix 8 rest2).map Int.ofNat
        else if c2 = 'b' ∨ c2 = 'B' then (parseRadix 2 rest2).map Int.ofNat
        else (parseDigits l).map Int.ofNat
    else (parseDigits l).map Int.ofNat

/-! ## The amount codec (source lines 226-254) -/

/-- Truncation toward zero, the semantics of `Math.trunc` on the exact
rational value of a finite double. -/
def jsTrunc (q : ℚ) : Int := if q < 0 then -Int.floor (-q) else Int.floor q

/-- Raw value reaching `safeParseAtomic`: `null`, `undefined`, a `bigint`, a
finite number (exact rational value), a non-finite number, or a string. -/
inductive RawValue where
  | rnull
  | rundef
  | rbig (n : Int)
  | rnum (q : ℚ)
  | rnan
  | rposInf
  | rnegInf
  | rstr (s : String)

/-- The string fall-through of `safeParseAtomic`: `String(raw).trim()`, the
emptiness check, then `BigInt(text)` under `try`/`catch`. -/
def parseTrimmed (s : String) : Option Int :=
  let text := jsTrim s.data
  if text = [] then none else parseBigInt text

/-- Embedding of `safeParseAtomic` (source lines 226-239).  Non-finite
numbers fail the `Number.isFinite` guard and fall through to the string
path, where `String(raw)` renders them as `"NaN"`, `"Infinity"`,
`"-Infinity"`. -/
def safeParseAtomic : RawValue → Option Int
  | .rnull => none
  | .rundef => none
  | .rbig n => some n
  | .rnum q => some (jsTrunc q)
  | .rnan => parseTrimmed "NaN"
  | .rposInf => parseTrimmed "Infinity"
  | .rnegInf => parseTrimmed "-Infinity"
  | .rstr s => parseTrimmed s

/-- JavaScript `padStart(target, "0")` on the digit list. -/
def padStartZeros (l : List Char) (target : Nat) : List Char :=
  List.replicate (target - l.length) '0' ++ l

/-- JavaScript `replace(/0+$/, "")`: remove the maximal trailing run of
zero characters. -/
def stripTrailingZeros (l : List Char) : List Char :=
  (l.reverse.dropWhile (fun c => c == '0')).reverse

/-- Character-level body of `formatAtomicAmount` (source lines 241-254). -/
def formatAtomicChars (amountAtomic : Int) (decimals : Int) : List Char :=
  if decimals ≤ 0 then intReprChars amountAtomic
  else
    let divisor : Int := 10 ^ decimals.toNat
    let negative := amountAtomic < 0
    let abs := if negative then -amountAtomic else amountAtomic
    let whole := abs / divisor
    let fraction := abs % divisor
    let padded := stripTrailingZeros (padStartZeros (natDigits fraction.toNat) decimals.toNat)
    let base :=
      if padded ≠ [] then intReprChars whole ++ '.' :: padded
      else intReprChars whole
    if negative then '-' :: base else base

/-- Embedding of `formatAtomicAmount` (source lines 241-254). -/
def formatAtomicAmount (amountAtomic : Int) (decimals : Int) : String :=
  String.mk (formatAtomicChars amountAtomic decimals)

/-! ## The asset resolver (source lines 193-214) -/

/-- Default decimal precision (source line 145). -/
def DEFAULT_DECIMALS : Int := 6

/-- Primitive JavaScript values appearing in the untyped requirement fields.
Numbers are restricted to the integer-valued ones the facilitator handles. -/
inductive JLite where
  | jundef
  | jnull
  | jstr (s : String)
  | jnum (n : Int)
  | jbool (b : Bool)

/-- JavaScript `String(v)` on the modelled primitive values. -/
def jsStringOf : JLite → String
  | .jundef => "undefined"
  | .jnull => "null"
  | .jstr s => s
  | .jnum n => intRepr n
  | .jbool b => if b then "true" else "false"

/-- A structured asset object: whether it has an `address` key (the `in`
operator also sees keys bound to `undefined`), and the values of its
`address` and `decimals` properties (`jundef` when absent). -/
structure AssetObj where
  hasAddress : Bool
  address : JLite
  decimals : JLite

/-- The shape of the `asset` field of payment requirements. -/
inductive AssetField where
  | jundef
  | jnull
  | str (s : String)
  | obj (o : AssetObj)

/-- The `extra` field: absent, or an object whose `assetDecimals` property
has the given value (`jundef` when the property is absent). -/
inductive ExtraField where
  | missing
  | obj (assetDecimals : JLite)

/-- Embedding of `resolveAssetInfo` (source lines 193-214).  Branch order as
in the source: structured object with an `address` key, then non-blank
string, then the `unknown` fallback; `extra.assetDecimals` wins whenever it
is a number. -/
def resolveAssetInfo (asset : AssetField) (extra : ExtraField) : String × Int :=
  let extraDecimals : Option Int :=
    match extra with
    | .obj (.jnum n) => some n
    | _ => none
  match asset with
  | .obj o =>
    if o.hasAddress then
      let address :=
        match o.address with
        | .jundef => "unknown"
        | .jnull => "unknown"
        | v => jsStringOf v
      let decimalsCandidate :=
        extraDecimals.getD
          (match o.decimals with
           | .jnum n => n
           | _ => DEFAULT_DECIMALS)
      (address, decimalsCandidate)
    else ("unknown", extraDecimals.getD DEFAULT_DECIMALS)
  | .str s =>
    if jsTrim s.data ≠ [] then (s, extraDecimals.getD DEFAULT_DECIMALS)
    else ("unknown", extraDecimals.getD DEFAULT_DECIMALS)
  | _ => ("unknown", extraDecimals.getD DEFAULT_DECIMALS)

/-! ## The settlement window aggregator (source lines 146-286) -/

/-- Milliseconds in 24 hours (source line 146). -/
def MS_IN_DAY : Int := 24 * 60 * 60 * 1000

/-- A recorded settlement (source lines 148-153). -/
structure SettlementEntry where
  timestamp : Int
  asset : String
  decimals : Int
  amountAtomic : Int
deriving DecidableEq

/-- The module-level `settlementWindow` array, passed explicitly. -/
abbrev Window := List SettlementEntry

/-- One rolling-totals bucket (source line 155). -/
structure TotalEntry where
  asset : String
  decimals : Int
  amountAtomic : Int
deriving DecidableEq

/-- The grouping key template literal `asset|decimals` (source line 272). -/
def totalsKey (asset : String) (decimals : Int) : String :=
  String.mk (asset.data ++ '|' :: intReprChars decimals)

/-- Embedding of `pruneSettlementWindow` (source lines 256-261): shift
entries off the front while the oldest is older than the 24h cutoff. -/
def pruneSettlementWindow (now : Int) (w : Window) : Window :=
  w.dropWhile (fun e => e.timestamp < now - MS_IN_DAY)

/-- One step of the totals `Map` construction: JavaScript `Map` lookup plus
in-place update, appending a fresh bucket on a miss (insertion order). -/
def insertTotal (totals : List (String × TotalEntry)) (key : String)
    (e : SettlementEntry) : List (String × TotalEntry) :=
  match totals with
  | [] => [(key, ⟨e.asset, e.decimals, e.amountAtomic⟩)]
  | (k, t) :: rest =>
    if k = key then (k, ⟨t.asset, t.decimals, t.amountAtomic + e.amountAtomic⟩) :: rest
    else (k, t) :: insertTotal rest key e

/-- The totals loop of `recordSettlement` (source lines 270-283). -/
def buildTotals (w : Window) : List (String × TotalEntry) :=
  w.foldl (fun totals e => insertTotal totals (totalsKey e.asset e.decimals) e) []

/-- Embedding of `recordSettlement` (source lines 263-286): push the entry,
prune, rebuild the totals, return the new window with totals and count. -/
def recordSettlement (now : Int) (asset : String) (decimals : Int)
    (amountAtomic : Int) (w : Window) :
    Window × List (String × TotalEntry) × Nat :=
  let w1 := w ++ [⟨now, asset, decimals, amountAtomic⟩]
  let w2 := pruneSettlementWindow now w1
  (w2, buildTotals w2, w2.length)

/-- Sum of the amounts of the retained entries in the `(asset, decimals)`
group; the quantity the rolling totals are claimed to compute. -/
def groupSum (w : Window) (a : String) (d : Int) : Int :=
  ((w.filter (fun e => e.asset == a && e.decimals == d)).map
    (fun e => e.amountAtomic)).sum

/-! ## The settlement event path (source lines 345-356, 453-473) -/

/-- The requirement fields the settlement event path reads. -/
structure ReqModel where
  asset : AssetField
  extra : ExtraField
  maxAmountRequired : RawValue

/-- Effect of `logSettlementEvent` (source lines 345-356) on the settlement
window: record only when the amount parses; otherwise the window is
untouched and only presentation output is produced. -/
def logSettlementEventWindow (pr : ReqModel) (now : Int) (w : Window) : Window :=
  let info := resolveAssetInfo pr.asset pr.extra
  match safeParseAtomic pr.maxAmountRequired with
  | some amountAtomic => (recordSettlement now info.1 info.2 amountAtomic w).1
  | none => w

/-- Response of the `/settle` route. -/
inductive SettleResponse where
  | ok (receipt : String)
  | clientError (msg : String)
deriving DecidableEq

/-- Tail of the `/settle` handler after the external `settle` capability
succeeds (source lines 465-468): log the settlement event (which may record
into the window) and return the receipt as the JSON response. -/
def settleRouteAfterSettle (pr : ReqModel) (receipt : String) (now : Int)
    (w : Window) : SettleResponse × Window :=
  (SettleResponse.ok receipt, logSettlementEventWindow pr now w)

/-! ## The signer cache (source lines 126-140) -/

/-- State of the signer registry: the `signerCache` map (promise identities
as numbers, insertion order), a fresh-identity counter, and the log of
networks for which `createSigner` was actually invoked. -/
structure SignerState where
  cache : List (String × Nat)
  nextId : Nat
  creations : List String
deriving DecidableEq

/-- The empty cache at module load. -/
def initialSignerState : SignerState := ⟨[], 0, []⟩

/-- Embedding of one `getSigner` call (source lines 135-140).  The body has
no suspension point between the `has` check and the `set`, so under the
single-threaded event loop each call is one atomic step; the promise itself
is stored before any await, which is what makes concurrent first-use share
one in-flight creation. -/
def getSignerStep (st : SignerState) (network : String) : Nat × SignerState :=
  match List.lookup network st.cache with
  | some id => (id, st)
  | none =>
    (st.nextId,
     ⟨st.cache ++ [(network, st.nextId)], st.nextId + 1, st.creations ++ [network]⟩)

/-- Run a sequence of `getSigner` calls (any interleaving of concurrent
callers is some such sequence), collecting each call's returned handle. -/
def runGetSigner : List String → SignerState → List (String × Nat) × SignerState
  | [], st => ([], st)
  | n :: rest, st =>
    let step := getSignerStep st n
    let run := runGetSigner rest step.2
    ((n, step.1) :: run.1, run.2)

/-! ## Fixed-point decoding of the formatted string

Modelled from the spec: section 8 states the round-trip property as
re-parsing the formatted string and re-scaling by `10^decimals`.  The
decoder splits at the decimal point and values the whole and fractional
digit groups exactly, which is the only reading under which a fractional
part can be re-scaled. -/

/-- Split a character list at the first `'.'`, if any. -/
def splitDot : List Char → List Char × Option (List Char)
  | [] => ([], none)
  | c :: rest =>
    if c = '.' then ([], some rest)
    else
      let r := splitDot rest
      (c :: r.1, r.2)

/-- Exact value of a non-negative fixed-point decimal string with the given
scale: the whole part scaled by `10^d` plus the fraction digits scaled by
the positional weight they carry. -/
def decodeFixedPoint (s : String) (d : Nat) : Int :=
  match splitDot s.data with
  | (w, none) => (digitsVal w : Int) * 10 ^ d
  | (w, some f) => (digitsVal w : Int) * 10 ^ d + (digitsVal f : Int) * 10 ^ (d - f.length)

/-! ## Lemmas about the decimal renderer -/

theorem digitVal_digitChar : ∀ n, n < 10 → digitVal (Nat.digitChar n) = n := by
  decide

theorem digitChar_is_digit : ∀ n, n < 10 → isDigitChar (Nat.digitChar n) = true := by
  decide

theorem digitsVal_append_singleton (l : List Char) (c : Char) :
    digitsVal (l ++ [c]) = digitsVal l * 10 + digitVal c := by
  simp [digitsVal, List.foldl_append]

theorem digitsVal_natDigitsAux :
    ∀ fuel n, n < fuel → digitsVal (natDigitsAux fuel n) = n := by
  intro fuel
  induction fuel with
  | zero => intro n h; omega
  | succ fuel ih =>
    intro n h
    rw [natDigitsAux]
    by_cases h10 : n < 10
    · simp only [if_pos h10]
      simp [digitsVal, digitVal_digitChar n h10]
    · simp only [if_neg h10]
      rw [digitsVal_append_singleton, ih (n / 10) (by omega),
        digitVal_digitChar (n % 10) (by omega)]
      omega

theorem natDigitsAux_ne_nil : ∀ fuel n, n < fuel → natDigitsAux fuel n ≠ [] := by
  intro fuel
  induction fuel with
  | zero => intro n h; omega
  | succ fuel _ =>
    intro n _
    rw [natDigitsAux]
    by_cases h10 : n < 10
    · simp [if_pos h10]
    · simp [if_neg h10]

theorem natDigitsAux_all_digit :
    ∀ fuel n, n < fuel → ∀ c ∈ natDigitsAux fuel n, isDigitChar c = true := by
  intro fuel
  induction fuel with
  | zero => intro n h; omega
  | succ fuel ih =>
    intro n h c hc
    rw [natDigitsAux] at hc
    by_cases h10 : n < 10
    · simp only [if_pos h10, List.mem_singleton] at hc
      exact hc ▸ digitChar_is_digit n h10
    · simp only [if_neg h10, List.mem_append, List.mem_singleton] at hc
      rcases hc with hc | hc
      · exact ih (n / 10) (by omega) c hc
      · exact hc ▸ digitChar_is_digit (n % 10) (by omega)

theorem natDigitsAux_length_le :
    ∀ fuel n d, n < fuel → 1 ≤ d → n < 10 ^ d → (natDigitsAux fuel n).length ≤ d := by
  intro fuel
  induction fuel with
  | zero => intro n d h; omega
  | succ fuel ih =>
    intro n d h hd hlt
    rw [natDigitsAux]
    by_cases h10 : n < 10
    · simpa [if_pos h10] using hd
    · simp only [if_neg h10, List.length_append, List.length_singleton]
      have hd2 : 2 ≤ d := by
        by_contra hcon
        have : d = 1 := by omega
        subst this
        simp at hlt
        omega
      have hdiv : n / 10 < 10 ^ (d - 1) := by
        rw [Nat.div_lt_iff_lt_mul (by omega)]
        calc n < 10 ^ d := hlt
          _ = 10 ^ (d - 1) * 10 := by
            rw [← pow_succ]
            congr 1
            omega
      have := ih (n / 10) (d - 1) (by omega) (by omega) hdiv
      omega

theorem digitsVal_natDigits (n : Nat) : digitsVal (natDigits n) = n :=
  digitsVal_natDigitsAux (n + 1) n (Nat.lt_succ_self n)

theorem natDigits_ne_nil (n : Nat) : natDigits n ≠ [] :=
  natDigitsAux_ne_nil (n + 1) n (Nat.lt_succ_self n)

theorem natDigits_all_digit (n : Nat) : ∀ c ∈ natDigits n, isDigitChar c = true :=
  natDigitsAux_all_digit (n + 1) n (Nat.lt_succ_self n)

theorem natDigits_length_le (n d : Nat) (hd : 1 ≤ d) (h : n < 10 ^ d) :
    (natDigits n).length ≤ d :=
  natDigitsAux_length_le (n + 1) n d (Nat.lt_succ_self n) hd h

theorem natDigits_inj {m n : Nat} (h : natDigits m = natDigits n) : m = n := by
  have hm := digitsVal_natDigits m
  have hn := digitsVal_natDigits n
  rw [h] at hm
  omega

theorem digit_char_bounds {c : Char} (h : isDigitChar c = true) :
    48 ≤ c.toNat ∧ c.toNat ≤ 57 := by
  simp only [isDigitChar, decide_eq_true_eq] at h
  obtain ⟨h1, h2⟩ := h
  constructor
  · exact h1
  · exact h2

theorem digit_ne_dot {c : Char} (h : isDigitChar c = true) : c ≠ '.' := by
  intro hc
  subst hc
  simp [isDigitChar] at h

theorem digit_ne_bar {c : Char} (h : isDigitChar c = true) : c ≠ '|' := by
  intro hc
  subst hc
  simp [isDigitChar] at h

theorem digit_ne_dash {c : Char} (h : isDigitChar c = true) : c ≠ '-' := by
  intro hc
  subst hc
  simp [isDigitChar] at h

theorem digit_not_whitespace {c : Char} (h : isDigitChar c = true) :
    isJsWhitespace c = false := by
  simp only [isJsWhitespace, decide_eq_false_iff_not]
  intro hc
  rcases hc with rfl | rfl | rfl | rfl | rfl | rfl <;> simp [isDigitChar] at h

theorem dot_not_mem_natDigits (n : Nat) : '.' ∉ natDigits n := by
  intro h
  exact digit_ne_dot (natDigits_all_digit n '.' h) rfl

theorem bar_not_mem_natDigits (n : Nat) : '|' ∉ natDigits n := by
  intro h
  exact digit_ne_bar (natDigits_all_digit n '|' h) rfl

theorem bar_not_mem_intReprChars (n : Int) : '|' ∉ intReprChars n := by
  unfold intReprChars
  by_cases h : n < 0
  · simp only [if_pos h, List.mem_cons]
    rintro (hc | hc)
    · exact absurd hc (by decide)
    · exact bar_not_mem_natDigits _ hc
  · simp only [if_neg h]
    exact bar_not_mem_natDigits _

/-! ## Lemmas about padding and trailing-zero stripping -/

theorem foldl_digits_replicate_zero (k : Nat) :
    List.foldl (fun acc c => acc * 10 + digitVal c) 0 (List.replicate k '0') = 0 := by
  induction k with
  | zero => rfl
  | succ k ih => simpa [List.replicate_succ] using ih

theorem digitsVal_replicate_zero_append (k : Nat) (l : List Char) :
    digitsVal (List.replicate k '0' ++ l) = digitsVal l := by
  simp only [digitsVal, List.foldl_append, foldl_digits_replicate_zero]

theorem digitsVal_padStartZeros (l : List Char) (d : Nat) :
    digitsVal (padStartZeros l d) = digitsVal l :=
  digitsVal_replicate_zero_append _ l

theorem length_padStartZeros (l : List Char) (d : Nat) (h : l.length ≤ d) :
    (padStartZeros l d).length = d := by
  simp only [padStartZeros, List.length_append, List.length_replicate]
  omega

theorem digitsVal_append_replicate_zero (l : List Char) (k : Nat) :
    digitsVal (l ++ List.replicate k '0') = digitsVal l * 10 ^ k := by
  induction k with
  | zero => simp
  | succ k ih =>
    rw [List.replicate_succ' k '0', ← List.append_assoc, digitsVal_append_singleton, ih]
    simp [digitVal]
    ring

theorem stripTrailingZeros_decomp (l : List Char) :
    ∃ k, l = stripTrailingZeros l ++ List.replicate k '0' ∧
      (stripTrailingZeros l).length + k = l.length := by
  refine ⟨(l.reverse.takeWhile (fun c => c == '0')).length, ?_, ?_⟩
  · conv_lhs => rw [← List.reverse_reverse l,
      ← List.takeWhile_append_dropWhile (fun c => c == '0') l.reverse]
    rw [List.reverse_append]
    unfold stripTrailingZeros
    congr 1
    have hall : ∀ x ∈ l.reverse.takeWhile (fun c => c == '0'), x = '0' := by
      intro x hx
      have := List.mem_takeWhile_imp hx
      simpa [beq_iff_eq] using this
    rw [List.eq_replicate_length.mpr fun x hx => hall x (List.mem_reverse.mp hx),
      List.length_reverse]
  · have := congrArg List.length
      (List.takeWhile_append_dropWhile (fun c => c == '0') l.reverse)
    simp only [List.length_append, List.length_reverse] at this
    simp only [stripTrailingZeros, List.length_reverse]
    omega

theorem digitsVal_stripTrailingZeros (l : List Char) :
    digitsVal l =
      digitsVal (stripTrailingZeros l) * 10 ^ (l.length - (stripTrailingZeros l).length) := by
  obtain ⟨k, hdecomp, hlen⟩ := stripTrailingZeros_decomp l
  have hk : l.length - (stripTrailingZeros l).length = k := by omega
  rw [hk]
  conv_lhs => rw [hdecomp]
  exact digitsVal_append_replicate_zero _ k

theorem stripTrailingZeros_length_le (l : List Char) :
    (stripTrailingZeros l).length ≤ l.length := by
  obtain ⟨k, _, hlen⟩ := stripTrailingZeros_decomp l
  omega

theorem stripTrailingZeros_of_all_zero (l : List Char) (h : ∀ c ∈ l, c = '0') :
    stripTrailingZeros l = [] := by
  unfold stripTrailingZeros
  have : l.reverse.dropWhile (fun c => c == '0') = [] := by
    rw [List.dropWhile_eq_nil_iff]
    intro x hx
    simp [beq_iff_eq, h x (List.mem_reverse.mp hx)]
  rw [this, List.reverse_nil]

theorem digitsVal_eq_zero_of_strip_nil (l : List Char)
    (h : stripTrailingZeros l = []) : digitsVal l = 0 := by
  have := digitsVal_stripTrailingZeros l
  rw [h] at this
  simpa [digitsVal] using this

theorem mem_replicate_zero {c : Char} {k : Nat} (h : c ∈ List.replicate k '0') :
    c = '0' :=
  (List.eq_of_mem_replicate h)

theorem padded_fraction_nil_iff (r d : Nat) (hr : r < 10 ^ d) (hd : 1 ≤ d) :
    stripTrailingZeros (padStartZeros (natDigits r) d) = [] ↔ r = 0 := by
  constructor
  · intro h
    have := digitsVal_eq_zero_of_strip_nil _ h
    rw [digitsVal_padStartZeros, digitsVal_natDigits] at this
    exact this
  · intro h
    subst h
    apply stripTrailingZeros_of_all_zero
    intro c hc
    simp only [padStartZeros, List.mem_append] at hc
    rcases hc with hc | hc
    · exact mem_replicate_zero hc
    · have : natDigits 0 = ['0'] := rfl
      rw [this] at hc
      simpa using hc

/-! ## Lemmas about splitting at the decimal point -/

theorem splitDot_of_no_dot (l : List Char) (h : '.' ∉ l) : splitDot l = (l, none) := by
  induction l with
  | nil => rfl
  | cons c t ih =>
    rw [splitDot]
    have hc : c ≠ '.' := fun hc => h (hc ▸ List.mem_cons_self c t)
    rw [if_neg hc, ih fun ht => h (List.mem_cons_of_mem c ht)]

theorem splitDot_append_dot (w f : List Char) (h : '.' ∉ w) :
    splitDot (w ++ '.' :: f) = (w, some f) := by
  induction w with
  | nil => simp [splitDot]
  | cons c t ih =>
    rw [List.cons_append, splitDot]
    have hc : c ≠ '.' := fun hc => h (hc ▸ List.mem_cons_self c t)
    rw [if_neg hc, ih fun ht => h (List.mem_cons_of_mem c ht)]

/-! ## Structural form of the formatter -/

theorem intReprChars_of_nonneg (n : Int) (h : 0 ≤ n) :
    intReprChars n = natDigits n.toNat := by
  unfold intReprChars
  rw [if_neg (by omega)]

theorem formatAtomicChars_pos (a d : Int) (hd : 0 < d) :
    formatAtomicChars a d =
      (if a < 0 then ['-'] else []) ++
      natDigits (a.natAbs / 10 ^ d.toNat) ++
      (if a.natAbs % 10 ^ d.toNat = 0 then []
       else '.' :: stripTrailingZeros
         (padStartZeros (natDigits (a.natAbs % 10 ^ d.toNat)) d.toNat)) := by
  unfold formatAtomicChars
  rw [if_neg (by omega)]
  have habs : (if a < 0 then -a else a) = (a.natAbs : Int) := by
    by_cases h : a < 0
    · rw [if_pos h]; omega
    · rw [if_neg h]; omega
  have hcastpow : ((10 : Int) ^ d.toNat) = ((10 ^ d.toNat : Nat) : Int) := by
    push_cast
    rfl
  have hdivcast : (a.natAbs : Int) / ((10 ^ d.toNat : Nat) : Int) =
      ((a.natAbs / 10 ^ d.toNat : Nat) : Int) := by
    exact_mod_cast (Int.ofNat_ediv a.natAbs (10 ^ d.toNat)).symm
  have hmodcast : (a.natAbs : Int) % ((10 ^ d.toNat : Nat) : Int) =
      ((a.natAbs % 10 ^ d.toNat : Nat) : Int) := by
    exact_mod_cast rfl
  simp only [habs, hcastpow, hdivcast, hmodcast]
  rw [intReprChars_of_nonneg _ (by positivity), Int.toNat_ofNat, Int.toNat_ofNat]
  by_cases hz : a.natAbs % 10 ^ d.toNat = 0
  · rw [hz]
    have hstrip : stripTrailingZeros (padStartZeros (natDigits 0) d.toNat) = [] := by
      apply (padded_fraction_nil_iff 0 d.toNat (by positivity) (by omega)).mpr rfl
    rw [hstrip]
    simp only [ne_eq, not_true_eq_false, if_neg, if_false]
    by_cases hneg : a < 0 <;> simp [hneg]
  · have hstrip : stripTrailingZeros
        (padStartZeros (natDigits (a.natAbs % 10 ^ d.toNat)) d.toNat) ≠ [] := by
      intro hcon
      exact hz ((padded_fraction_nil_iff _ d.toNat
        (Nat.mod_lt _ (by positivity)) (by omega)).mp hcon)
    rw [if_neg hz, if_pos hstrip]
    by_cases hneg : a < 0 <;> simp [hneg]

/-! ## The lossless round trip of the formatter -/

theorem decode_format (a d : Int) (ha : 0 ≤ a) (hd : 0 ≤ d) :
    decodeFixedPoint (formatAtomicAmount a d) d.toNat = a := by
  obtain ⟨n, rfl⟩ : ∃ n : Nat, a = (n : Int) := ⟨a.toNat, by omega⟩
  have hnabs : (n : Int).natAbs = n := Int.natAbs_ofNat n
  by_cases hdpos : 0 < d
  · have hD1 : 1 ≤ d.toNat := by omega
    have hpow : 0 < 10 ^ d.toNat := by positivity
    rw [formatAtomicAmount, formatAtomicChars_pos _ d hdpos, if_neg (by omega), hnabs]
    by_cases hz : n % 10 ^ d.toNat = 0
    · rw [if_pos hz]
      simp only [List.nil_append, List.append_nil]
      unfold decodeFixedPoint
      rw [show (String.mk (natDigits (n / 10 ^ d.toNat))).data =
          natDigits (n / 10 ^ d.toNat) from rfl,
        splitDot_of_no_dot _ (dot_not_mem_natDigits _)]
      simp only [digitsVal_natDigits]
      have key : n / 10 ^ d.toNat * 10 ^ d.toNat = n :=
        Nat.div_mul_cancel (Nat.dvd_of_mod_eq_zero hz)
      exact_mod_cast key
    · rw [if_neg hz]
      simp only [List.nil_append]
      unfold decodeFixedPoint
      rw [show (String.mk (natDigits (n / 10 ^ d.toNat) ++
          '.' :: stripTrailingZeros
            (padStartZeros (natDigits (n % 10 ^ d.toNat)) d.toNat))).data =
          natDigits (n / 10 ^ d.toNat) ++
          '.' :: stripTrailingZeros
            (padStartZeros (natDigits (n % 10 ^ d.toNat)) d.toNat) from rfl,
        splitDot_append_dot _ _ (dot_not_mem_natDigits _)]
      simp only [digitsVal_natDigits]
      have hlenP : (padStartZeros (natDigits (n % 10 ^ d.toNat)) d.toNat).length =
          d.toNat :=
        length_padStartZeros _ _
          (natDigits_length_le _ _ hD1 (Nat.mod_lt _ hpow))
      have hfrac : digitsVal (stripTrailingZeros
            (padStartZeros (natDigits (n % 10 ^ d.toNat)) d.toNat)) *
            10 ^ (d.toNat - (stripTrailingZeros
              (padStartZeros (natDigits (n % 10 ^ d.toNat)) d.toNat)).length) =
          n % 10 ^ d.toNat := by
        have hval := digitsVal_stripTrailingZeros
          (padStartZeros (natDigits (n % 10 ^ d.toNat)) d.toNat)
        rw [digitsVal_padStartZeros, digitsVal_natDigits, hlenP] at hval
        exact hval.symm
      have key : n / 10 ^ d.toNat * 10 ^ d.toNat +
          digitsVal (stripTrailingZeros
            (padStartZeros (natDigits (n % 10 ^ d.toNat)) d.toNat)) *
            10 ^ (d.toNat - (stripTrailingZeros
              (padStartZeros (natDigits (n % 10 ^ d.toNat)) d.toNat)).length) = n := by
        rw [hfrac, Nat.mul_comm]
        exact Nat.div_add_mod n (10 ^ d.toNat)
      exact_mod_cast key
  · have hd0 : d.toNat = 0 := by omega
    rw [formatAtomicAmount]
    unfold formatAtomicChars
    rw [if_pos (by omega : d ≤ 0), intReprChars_of_nonneg _ ha]
    unfold decodeFixedPoint
    rw [show (String.mk (natDigits ((n : Int)).toNat)).data =
        natDigits ((n : Int)).toNat from rfl,
      splitDot_of_no_dot _ (dot_not_mem_natDigits _)]
    simp only [digitsVal_natDigits, hd0, pow_zero, mul_one, Int.toNat_ofNat]

/-! ## Lemmas about trimming and integer-string parsing -/

theorem dropWhile_of_forall_neg (p : Char → Bool) (l : List Char)
    (h : ∀ c ∈ l, p c = false) : l.dropWhile p = l := by
  cases l with
  | nil => rfl
  | cons c t =>
    exact List.dropWhile_cons_of_neg
      (fun hc => by rw [h c (List.mem_cons_self c t)] at hc; exact Bool.false_ne_true hc)

theorem jsTrim_of_no_whitespace (l : List Char)
    (h : ∀ c ∈ l, isJsWhitespace c = false) : jsTrim l = l := by
  unfold jsTrim
  rw [dropWhile_of_forall_neg _ l h,
    dropWhile_of_forall_neg _ l.reverse fun c hc => h c (List.mem_reverse.mp hc),
    List.reverse_reverse]

theorem parseDigits_of_digits (l : List Char) (h1 : l ≠ [])
    (h2 : ∀ c ∈ l, isDigitChar c = true) :
    parseDigits l = some (digitsVal l) := by
  unfold parseDigits
  rw [if_pos ⟨h1, List.all_eq_true.mpr h2⟩]

theorem digit_ne_of_out_of_range {c : Char} (h : isDigitChar c = true)
    (target : Char) (htarget : target.toNat < 48 ∨ 57 < target.toNat) :
    c ≠ target := by
  intro hc
  subst hc
  have := digit_char_bounds h
  omega

theorem parseBigInt_single (c0 : Char) :
    parseBigInt [c0] =
      (if c0 = '+' then (parseDigits []).map Int.ofNat
       else if c0 = '-' then (parseDigits []).map (fun n => -Int.ofNat n)
       else if c0 = '0' then (parseDigits [c0]).map Int.ofNat
       else (parseDigits [c0]).map Int.ofNat) := rfl

theorem parseBigInt_cons_cons (c0 c2 : Char) (rest2 : List Char) :
    parseBigInt (c0 :: c2 :: rest2) =
      (if c0 = '+' then (parseDigits (c2 :: rest2)).map Int.ofNat
       else if c0 = '-' then (parseDigits (c2 :: rest2)).map (fun n => -Int.ofNat n)
       else if c0 = '0' then
         (if c2 = 'x' ∨ c2 = 'X' then (parseRadix 16 rest2).map Int.ofNat
          else if c2 = 'o' ∨ c2 = 'O' then (parseRadix 8 rest2).map Int.ofNat
          else if c2 = 'b' ∨ c2 = 'B' then (parseRadix 2 rest2).map Int.ofNat
          else (parseDigits (c0 :: c2 :: rest2)).map Int.ofNat)
       else (parseDigits (c0 :: c2 :: rest2)).map Int.ofNat) := rfl

theorem parseBigInt_of_digits (l : List Char) (h1 : l ≠ [])
    (h2 : ∀ c ∈ l, isDigitChar c = true) :
    parseBigInt l = some ((digitsVal l : Int)) := by
  have hpd := parseDigits_of_digits l h1 h2
  cases l with
  | nil => exact absurd rfl h1
  | cons c0 rest =>
    have hd0 := h2 c0 (List.mem_cons_self c0 rest)
    cases rest with
    | nil =>
      rw [parseBigInt_single,
        if_neg (digit_ne_of_out_of_range hd0 '+' (by decide)),
        if_neg (digit_ne_of_out_of_range hd0 '-' (by decide)), hpd]
      rcases Decidable.em (c0 = '0') with h0 | h0
      · rw [if_pos h0]
        rfl
      · rw [if_neg h0]
        rfl
    | cons c2 rest2 =>
      have hd2 := h2 c2 (List.mem_cons_of_mem c0 (List.mem_cons_self c2 rest2))
      rw [parseBigInt_cons_cons,
        if_neg (digit_ne_of_out_of_range hd0 '+' (by decide)),
        if_neg (digit_ne_of_out_of_range hd0 '-' (by decide))]
      by_cases h0 : c0 = '0'
      · rw [if_pos h0,
          if_neg (by
            rintro (hc | hc)
            · exact digit_ne_of_out_of_range hd2 'x' (by decide) hc
            · exact digit_ne_of_out_of_range hd2 'X' (by decide) hc),
          if_neg (by
            rintro (hc | hc)
            · exact digit_ne_of_out_of_range hd2 'o' (by decide) hc
            · exact digit_ne_of_out_of_range hd2 'O' (by decide) hc),
          if_neg (by
            rintro (hc | hc)
            · exact digit_ne_of_out_of_range hd2 'b' (by decide) hc
            · exact digit_ne_of_out_of_range hd2 'B' (by decide) hc),
          hpd]
        rfl
      · rw [if_neg h0, hpd]
        rfl

theorem safeParseAtomic_of_digit_string (l : List Char) (h1 : l ≠ [])
    (h2 : ∀ c ∈ l, isDigitChar c = true) :
    safeParseAtomic (.rstr (String.mk l)) = some ((digitsVal l : Int)) := by
  show parseTrimmed (String.mk l) = some ((digitsVal l : Int))
  unfold parseTrimmed
  have htrim : jsTrim (String.mk l).data = l :=
    jsTrim_of_no_whitespace l fun c hc => digit_not_whitespace (h2 c hc)
  simp only [htrim, if_neg h1]
  exact parseBigInt_of_digits l h1 h2

theorem safeParseAtomic_of_neg_digit_string (l : List Char) (h1 : l ≠ [])
    (h2 : ∀ c ∈ l, isDigitChar c = true) :
    safeParseAtomic (.rstr (String.mk ('-' :: l))) = some (-(digitsVal l : Int)) := by
  show parseTrimmed (String.mk ('-' :: l)) = some (-(digitsVal l : Int))
  unfold parseTrimmed
  have htrim : jsTrim (String.mk ('-' :: l)).data = '-' :: l := by
    apply jsTrim_of_no_whitespace
    intro c hc
    rcases List.mem_cons.mp hc with rfl | hc
    · rfl
    · exact digit_not_whitespace (h2 c hc)
  simp only [htrim, if_neg (List.cons_ne_nil '-' l)]
  cases l with
  | nil => exact absurd rfl h1
  | cons c t =>
    rw [parseBigInt_cons_cons, if_neg (by decide : ¬ ('-' = '+')), if_pos rfl,
      parseDigits_of_digits (c :: t) h1 h2]
    rfl

theorem safeParseAtomic_format_of_dvd (a d : Int) (ha : 0 ≤ a) (hd : 0 ≤ d)
    (hdvd : ((10 : Int) ^ d.toNat) ∣ a) :
    safeParseAtomic (.rstr (formatAtomicAmount a d)) = some (a / 10 ^ d.toNat) := by
  have hna : ((a.natAbs : Nat) : Int) = a := by omega
  have hcastpow : ((10 : Int) ^ d.toNat) = ((10 ^ d.toNat : Nat) : Int) := by
    push_cast
    rfl
  by_cases hdpos : 0 < d
  · have hdvdnat : 10 ^ d.toNat ∣ a.natAbs := by
      have : ((10 ^ d.toNat : Nat) : Int) ∣ ((a.natAbs : Nat) : Int) := by
        rw [hna, ← hcastpow]
        exact hdvd
      exact_mod_cast this
    have hz : a.natAbs % 10 ^ d.toNat = 0 := by
      obtain ⟨c, hc⟩ := hdvdnat
      rw [hc]
      exact Nat.mul_mod_right _ c
    rw [formatAtomicAmount, formatAtomicChars_pos a d hdpos, if_neg (by omega), if_pos hz]
    simp only [List.nil_append, List.append_nil]
    rw [safeParseAtomic_of_digit_string _ (natDigits_ne_nil _) (natDigits_all_digit _),
      digitsVal_natDigits]
    congr 1
    rw [← hna, hcastpow]
    exact Int.ofNat_ediv a.natAbs (10 ^ d.toNat)
  · have hd0 : d.toNat = 0 := by omega
    rw [formatAtomicAmount]
    unfold formatAtomicChars
    rw [if_pos (by omega : d ≤ 0), intReprChars_of_nonneg a ha]
    rw [safeParseAtomic_of_digit_string _ (natDigits_ne_nil _) (natDigits_all_digit _),
      digitsVal_natDigits]
    rw [hd0, pow_zero]
    congr 1
    omega

/-! ## Injectivity of the totals grouping key -/

theorem append_bar_inj :
    ∀ (a1 s1 a2 s2 : List Char), '|' ∉ s1 → '|' ∉ s2 →
      a1 ++ '|' :: s1 = a2 ++ '|' :: s2 → a1 = a2 ∧ s1 = s2 := by
  intro a1
  induction a1 with
  | nil =>
    intro s1 a2 s2 h1 _ heq
    cases a2 with
    | nil => simpa using heq
    | cons c t =>
      simp only [List.nil_append, List.cons_append, List.cons.injEq] at heq
      exact absurd (heq.2 ▸ List.mem_append_right t (List.mem_cons_self '|' s2)) h1
  | cons c t ih =>
    intro s1 a2 s2 h1 h2 heq
    cases a2 with
    | nil =>
      simp only [List.nil_append, List.cons_append, List.cons.injEq] at heq
      exact absurd (heq.2.symm ▸ List.mem_append_right t (List.mem_cons_self '|' s1)) h2
    | cons c2 t2 =>
      simp only [List.cons_append, List.cons.injEq] at heq
      obtain ⟨rfl, heq⟩ := heq
      obtain ⟨rfl, rfl⟩ := ih s1 t2 s2 h1 h2 heq
      exact ⟨rfl, rfl⟩

theorem intReprChars_inj {d1 d2 : Int} (h : intReprChars d1 = intReprChars d2) :
    d1 = d2 := by
  unfold intReprChars at h
  by_cases h1 : d1 < 0 <;> by_cases h2 : d2 < 0
  · rw [if_pos h1, if_pos h2] at h
    simp only [List.cons.injEq, true_and] at h
    have := natDigits_inj h
    omega
  · rw [if_pos h1, if_neg h2] at h
    cases hnd : natDigits d2.toNat with
    | nil => exact absurd hnd (natDigits_ne_nil _)
    | cons c t =>
      rw [hnd] at h
      have hc : c = '-' := (List.cons.injEq _ _ _ _ ▸ h).1.symm
      have hdig := natDigits_all_digit d2.toNat c (hnd ▸ List.mem_cons_self c t)
      exact absurd hc (digit_ne_dash hdig)
  · rw [if_neg h1, if_pos h2] at h
    cases hnd : natDigits d1.toNat with
    | nil => exact absurd hnd (natDigits_ne_nil _)
    | cons c t =>
      rw [hnd] at h
      have hc : c = '-' := (List.cons.injEq _ _ _ _ ▸ h).1
      have hdig := natDigits_all_digit d1.toNat c (hnd ▸ List.mem_cons_self c t)
      exact absurd hc (digit_ne_dash hdig)
  · rw [if_neg h1, if_neg h2] at h
    have := natDigits_inj h
    omega

theorem totalsKey_inj {a1 a2 : String} {d1 d2 : Int}
    (h : totalsKey a1 d1 = totalsKey a2 d2) : a1 = a2 ∧ d1 = d2 := by
  have hdata : a1.data ++ '|' :: intReprChars d1 = a2.data ++ '|' :: intReprChars d2 :=
    congrArg String.data h
  obtain ⟨hstr, hrep⟩ := append_bar_inj a1.data _ a2.data _
    (bar_not_mem_intReprChars d1) (bar_not_mem_intReprChars d2) hdata
  refine ⟨?_, intReprChars_inj hrep⟩
  cases a1
  cases a2
  exact congrArg String.mk hstr

/-! ## Lookup behaviour of the totals map -/

theorem lookup_cons_pair {β : Type} (n k : String) (v : β) (t : List (String × β)) :
    List.lookup n ((k, v) :: t) = if n = k then some v else List.lookup n t := by
  cases hbeq : n == k
  · rw [if_neg (by simpa using hbeq)]
    simp [List.lookup, hbeq]
  · rw [if_pos (by simpa using hbeq)]
    simp [List.lookup, hbeq]

theorem lookup_insertTotal_self (totals : List (String × TotalEntry)) (key : String)
    (e : SettlementEntry) :
    List.lookup key (insertTotal totals key e) =
      some (match List.lookup key totals with
            | some t => ⟨t.asset, t.decimals, t.amountAtomic + e.amountAtomic⟩
            | none => ⟨e.asset, e.decimals, e.amountAtomic⟩) := by
  induction totals with
  | nil =>
    simp [insertTotal, lookup_cons_pair]
  | cons p rest ih =>
    rcases p with ⟨k, t⟩
    unfold insertTotal
    by_cases hk : k = key
    · subst hk
      rw [if_pos rfl, lookup_cons_pair, if_pos rfl, lookup_cons_pair, if_pos rfl]
    · rw [if_neg hk, lookup_cons_pair, if_neg fun hc => hk hc.symm, ih,
        lookup_cons_pair, if_neg fun hc => hk hc.symm]

theorem lookup_insertTotal_ne (totals : List (String × TotalEntry)) (key k2 : String)
    (e : SettlementEntry) (h : k2 ≠ key) :
    List.lookup k2 (insertTotal totals key e) = List.lookup k2 totals := by
  induction totals with
  | nil =>
    simp [insertTotal, lookup_cons_pair, if_neg h]
  | cons p rest ih =>
    rcases p with ⟨k, t⟩
    unfold insertTotal
    by_cases hk : k = key
    · subst hk
      rw [if_pos rfl, lookup_cons_pair, lookup_cons_pair, if_neg h, if_neg h]
    · rw [if_neg hk, lookup_cons_pair, lookup_cons_pair]
      by_cases hk2 : k2 = k
      · rw [if_pos hk2, if_pos hk2]
      · rw [if_neg hk2, if_neg hk2, ih]

theorem groupSum_nil (a : String) (d : Int) : groupSum [] a d = 0 := rfl

theorem groupSum_cons_pos (e : SettlementEntry) (w : Window) (a : String) (d : Int)
    (h : e.asset = a ∧ e.decimals = d) :
    groupSum (e :: w) a d = e.amountAtomic + groupSum w a d := by
  unfold groupSum
  rw [List.filter_cons_of_pos (by simp [h.1, h.2])]
  simp

theorem groupSum_cons_neg (e : SettlementEntry) (w : Window) (a : String) (d : Int)
    (h : ¬(e.asset = a ∧ e.decimals = d)) :
    groupSum (e :: w) a d = groupSum w a d := by
  unfold groupSum
  rw [List.filter_cons_of_neg (by simpa using h)]

theorem lookup_buildTotals_aux (w : Window) :
    ∀ (acc : List (String × TotalEntry)) (a : String) (d : Int),
      List.lookup (totalsKey a d)
          (w.foldl (fun totals e => insertTotal totals (totalsKey e.asset e.decimals) e) acc) =
        (match List.lookup (totalsKey a d) acc with
         | some t => some ⟨t.asset, t.decimals, t.amountAtomic + groupSum w a d⟩
         | none =>
           if w.any (fun e => e.asset == a && e.decimals == d)
           then some ⟨a, d, groupSum w a d⟩ else none) := by
  induction w with
  | nil =>
    intro acc a d
    simp only [List.foldl_nil, groupSum_nil, List.any_nil, if_neg Bool.false_ne_true]
    cases hacc : List.lookup (totalsKey a d) acc with
    | none => rfl
    | some t =>
      cases t
      simp
  | cons e rest ih =>
    intro acc a d
    rw [List.foldl_cons, ih]
    by_cases hm : e.asset = a ∧ e.decimals = d
    · have hkey : totalsKey e.asset e.decimals = totalsKey a d := by
        rw [hm.1, hm.2]
      rw [hkey, lookup_insertTotal_self]
      have hany : (e :: rest).any (fun x => x.asset == a && x.decimals == d) = true := by
        rw [List.any_cons]
        apply Bool.or_eq_true_iff.mpr
        left
        simp [hm.1, hm.2]
      rw [hany]
      cases hacc : List.lookup (totalsKey a d) acc with
      | some t =>
        simp only [if_true]
        rw [groupSum_cons_pos e rest a d hm]
        congr 1
        simp [add_assoc]
      | none =>
        simp only [if_true]
        rw [groupSum_cons_pos e rest a d hm, hm.1, hm.2]
    · have hkey : totalsKey a d ≠ totalsKey e.asset e.decimals := by
        intro hc
        obtain ⟨h1, h2⟩ := totalsKey_inj hc
        exact hm ⟨h1.symm, h2.symm⟩
      rw [lookup_insertTotal_ne acc _ _ e hkey]
      have hany : (e :: rest).any (fun x => x.asset == a && x.decimals == d) =
          rest.any (fun x => x.asset == a && x.decimals == d) := by
        rw [List.any_cons]
        have : (e.asset == a && e.decimals == d) = false := by
          rw [Bool.and_eq_false_iff]
          by_cases h1 : e.asset = a
          · right
            rw [beq_eq_false_iff_ne]
            exact fun h2 => hm ⟨h1, h2⟩
          · left
            rw [beq_eq_false_iff_ne]
            exact h1
        rw [this, Bool.false_or]
      rw [hany, groupSum_cons_neg e rest a d hm]

theorem lookup_buildTotals (w : Window) (a : String) (d : Int) :
    List.lookup (totalsKey a d) (buildTotals w) =
      (if w.any (fun e => e.asset == a && e.decimals == d)
       then some ⟨a, d, groupSum w a d⟩ else none) := by
  unfold buildTotals
  rw [lookup_buildTotals_aux w [] a d]
  rfl

/-! ## Lemmas about window pruning -/

theorem dropWhile_eq_drop_length {α : Type} (p : α → Bool) (l : List α) :
    l.dropWhile p = l.drop (l.takeWhile p).length := by
  induction l with
  | nil => rfl
  | cons a t ih =>
    rw [List.dropWhile_cons, List.takeWhile_cons]
    by_cases h : p a = true
    · rw [if_pos h, if_pos h, List.length_cons, List.drop_succ_cons, ih]
    · rw [if_neg h, if_neg h, List.length_nil, List.drop_zero]

theorem pruneSettlementWindow_def (now : Int) (w : Window) :
    pruneSettlementWindow now w =
      w.dropWhile (fun e => decide (e.timestamp < now - MS_IN_DAY)) := rfl

theorem recordSettlement_def (now : Int) (asset : String) (decimals amount : Int)
    (w : Window) :
    recordSettlement now asset decimals amount w =
      (pruneSettlementWindow now (w ++ [⟨now, asset, decimals, amount⟩]),
       buildTotals (pruneSettlementWindow now (w ++ [⟨now, asset, decimals, amount⟩])),
       (pruneSettlementWindow now (w ++ [⟨now, asset, decimals, amount⟩])).length) := rfl

theorem dropWhile_all_true {α : Type} (l : List α) (p : α → Bool)
    (h : ∀ c ∈ l, p c = true) : l.dropWhile p = [] := by
  induction l with
  | nil => rfl
  | cons c t ih =>
    rw [List.dropWhile_cons_of_pos (h c (List.mem_cons_self c t))]
    exact ih fun x hx => h x (List.mem_cons_of_mem c hx)

theorem mem_dropWhile_of_pred_false {α : Type} (p : α → Bool) (l : List α) (x : α)
    (hx : x ∈ l) (hp : p x = false) : x ∈ l.dropWhile p := by
  rw [← List.takeWhile_append_dropWhile p l] at hx
  rcases List.mem_append.mp hx with h | h
  · have := List.mem_takeWhile_imp h
    rw [hp] at this
    exact absurd this Bool.false_ne_true
  · exact h

theorem pairwise_le_dropWhile_lt (c : Int) :
    ∀ l : Window,
      List.Pairwise (fun e1 e2 => e1.timestamp ≤ e2.timestamp) l →
      ∀ e ∈ l.dropWhile (fun x => decide (x.timestamp < c)), c ≤ e.timestamp := by
  intro l
  induction l with
  | nil =>
    intro _ e he
    simp at he
  | cons a t ih =>
    intro hp e he
    rw [List.dropWhile_cons] at he
    by_cases ha : a.timestamp < c
    · rw [if_pos (by simpa using ha)] at he
      exact ih (List.pairwise_cons.mp hp).2 e he
    · rw [if_neg (by simpa using ha)] at he
      rcases List.mem_cons.mp he with rfl | he
      · omega
      · have := (List.pairwise_cons.mp hp).1 e he
        omega

/-! ## Lemmas about the signer cache -/

theorem lookup_append_of_some {β : Type} (n : String) (i : β)
    (l1 l2 : List (String × β)) (h : List.lookup n l1 = some i) :
    List.lookup n (l1 ++ l2) = some i := by
  induction l1 with
  | nil => simp [List.lookup] at h
  | cons p t ih =>
    rcases p with ⟨k, v⟩
    rw [List.cons_append, lookup_cons_pair]
    rw [lookup_cons_pair] at h
    by_cases hk : n = k
    · rwa [if_pos hk] at h ⊢
    · rw [if_neg hk] at h ⊢
      exact ih h

theorem lookup_append_single_ne {β : Type} (n m : String) (v : β)
    (l : List (String × β)) (h : n ≠ m) :
    List.lookup n (l ++ [(m, v)]) = List.lookup n l := by
  induction l with
  | nil =>
    rw [List.nil_append, lookup_cons_pair, if_neg h]
  | cons p t ih =>
    rcases p with ⟨k, w⟩
    rw [List.cons_append, lookup_cons_pair, lookup_cons_pair]
    by_cases hk : n = k
    · rw [if_pos hk, if_pos hk]
    · rw [if_neg hk, if_neg hk, ih]

theorem lookup_append_single_self {β : Type} (n : String) (v : β)
    (l : List (String × β)) (h : List.lookup n l = none) :
    List.lookup n (l ++ [(n, v)]) = some v := by
  induction l with
  | nil => simp [List.lookup, lookup_cons_pair]
  | cons p t ih =>
    rcases p with ⟨k, w⟩
    rw [List.cons_append, lookup_cons_pair]
    rw [lookup_cons_pair] at h
    by_cases hk : n = k
    · rw [if_pos hk] at h
      exact absurd h (by simp)
    · rw [if_neg hk] at h ⊢
      exact ih h

theorem getSignerStep_lookup_persist (st : SignerState) (m n : String) (i : Nat)
    (h : List.lookup n st.cache = some i) :
    List.lookup n ((getSignerStep st m).2.cache) = some i := by
  unfold getSignerStep
  cases hm : List.lookup m st.cache with
  | some j => exact h
  | none =>
    have hnm : n ≠ m := by
      intro hc
      subst hc
      rw [h] at hm
      exact Option.noConfusion hm
    show List.lookup n (st.cache ++ [(m, st.nextId)]) = some i
    rw [lookup_append_single_ne n m st.nextId st.cache hnm]
    exact h

theorem getSignerStep_lookup_self (st : SignerState) (n : String) :
    List.lookup n ((getSignerStep st n).2.cache) = some (getSignerStep st n).1 := by
  unfold getSignerStep
  cases hm : List.lookup n st.cache with
  | some j => exact hm
  | none =>
    show List.lookup n (st.cache ++ [(n, st.nextId)]) = some st.nextId
    exact lookup_append_single_self n st.nextId st.cache hm

theorem runGetSigner_lookup_persist :
    ∀ (calls : List String) (st : SignerState) (n : String) (i : Nat),
      List.lookup n st.cache = some i →
      List.lookup n ((runGetSigner calls st).2.cache) = some i := by
  intro calls
  induction calls with
  | nil => intro st n i h; exact h
  | cons m rest ih =>
    intro st n i h
    exact ih _ n i (getSignerStep_lookup_persist st m n i h)

theorem runGetSigner_results_cached :
    ∀ (calls : List String) (st : SignerState) (p : String × Nat),
      p ∈ (runGetSigner calls st).1 →
      List.lookup p.1 ((runGetSigner calls st).2.cache) = some p.2 := by
  intro calls
  induction calls with
  | nil =>
    intro st p hp
    simp [runGetSigner] at hp
  | cons m rest ih =>
    intro st p hp
    rw [runGetSigner] at hp ⊢
    rcases List.mem_cons.mp hp with rfl | hp
    · exact runGetSigner_lookup_persist rest _ m _ (getSignerStep_lookup_self st m)
    · exact ih _ p hp

/-- The cache-creation invariant: a network has exactly one recorded
creation when it is cached and none otherwise. -/
def SignerInv (st : SignerState) : Prop :=
  ∀ n : String, st.creations.count n =
    (if (List.lookup n st.cache).isSome then 1 else 0)

theorem signerInv_initial : SignerInv initialSignerState := by
  intro n
  simp [initialSignerState, List.lookup]

theorem getSignerStep_preserves_inv (st : SignerState) (m : String)
    (h : SignerInv st) : SignerInv (getSignerStep st m).2 := by
  intro n
  unfold getSignerStep
  cases hm : List.lookup m st.cache with
  | some j => exact h n
  | none =>
    show (st.creations ++ [m]).count n =
      (if (List.lookup n (st.cache ++ [(m, st.nextId)])).isSome then 1 else 0)
    rw [List.count_append]
    by_cases hnm : n = m
    · subst hnm
      rw [lookup_append_single_self n st.nextId st.cache hm]
      have := h n
      rw [hm] at this
      simp only [Option.isSome_none, Bool.false_eq_true, if_false] at this
      simp [this, List.count_singleton]
    · rw [lookup_append_single_ne n m st.nextId st.cache hnm]
      have hc : List.count n [m] = 0 := by
        simp [List.count_singleton]
        exact fun hc => hnm hc.symm
      rw [hc, Nat.add_zero]
      exact h n

theorem runGetSigner_preserves_inv :
    ∀ (calls : List String) (st : SignerState),
      SignerInv st → SignerInv (runGetSigner calls st).2 := by
  intro calls
  induction calls with
  | nil => intro st h; exact h
  | cons m rest ih =>
    intro st h
    exact ih _ (getSignerStep_preserves_inv st m h)

/-! ## Claim theorems -/

/-- Claim C1: `formatAtomicAmount` returns the integer rendered as-is when
`decimals <= 0`; otherwise it renders the quotient of the absolute amount by
`10 ^ decimals`, followed, when the remainder is nonzero, by a decimal point
and the remainder zero-padded to `decimals` digits with trailing zeros
stripped (omitted entirely when the stripped fraction is empty), with one
leading minus sign prepended to the whole string on negative amounts; and
the four listed examples hold. -/
theorem claim_C1_formatAtomicAmount :
    (∀ a d : Int, d ≤ 0 → formatAtomicAmount a d = intRepr a) ∧
    (∀ a d : Int, 0 < d →
      formatAtomicAmount a d = String.mk (
        (if a < 0 then ['-'] else []) ++
        natDigits (a.natAbs / 10 ^ d.toNat) ++
        (if a.natAbs % 10 ^ d.toNat = 0 then []
         else '.' :: stripTrailingZeros
           (padStartZeros (natDigits (a.natAbs % 10 ^ d.toNat)) d.toNat)))) ∧
    formatAtomicAmount 1234567 6 = "1.234567" ∧
    formatAtomicAmount 1000000 6 = "1" ∧
    formatAtomicAmount 0 6 = "0" ∧
    formatAtomicAmount (-500000) 6 = "-0.5" := by
  refine ⟨?_, ?_, by decide, by decide, by decide, by decide⟩
  · intro a d hd
    rw [formatAtomicAmount]
    unfold formatAtomicChars
    rw [if_pos hd]
    rfl
  · intro a d hd
    rw [formatAtomicAmount, formatAtomicChars_pos a d hd]

/-- Witness for claim C1 at concrete inputs. -/
theorem claim_C1_witness :
    formatAtomicAmount 7 (-2) = intRepr 7 ∧
    formatAtomicAmount 10 6 = String.mk (
      (if (10 : Int) < 0 then ['-'] else []) ++
      natDigits ((10 : Int).natAbs / 10 ^ (6 : Int).toNat) ++
      (if (10 : Int).natAbs % 10 ^ (6 : Int).toNat = 0 then []
       else '.' :: stripTrailingZeros
         (padStartZeros (natDigits ((10 : Int).natAbs % 10 ^ (6 : Int).toNat))
           (6 : Int).toNat))) :=
  ⟨claim_C1_formatAtomicAmount.1 7 (-2) (by decide),
   claim_C1_formatAtomicAmount.2.1 10 6 (by decide)⟩

/-- Counterexample for claim C2 as stated: the formatted value of 1234567
with 6 decimals contains a decimal point, so `safeParseAtomic` rejects it
and the stated parse-and-rescale round trip cannot reproduce the amount. -/
theorem claim_C2_counterexample :
    formatAtomicAmount 1234567 6 = "1.234567" ∧
    safeParseAtomic (RawValue.rstr (formatAtomicAmount 1234567 6)) = none :=
  ⟨by decide, by decide⟩

/-- Claim C2 (amended): for all non-negative amount and decimals, decoding
the formatted string as an exact fixed-point decimal and re-scaling by
`10 ^ decimals` reproduces the amount exactly; the round trip through
`safeParseAtomic` itself succeeds (and re-scales back to the amount) exactly
in the cases where `10 ^ decimals` divides the amount, because only then
does the formatted string carry no decimal point. -/
theorem claim_C2_roundtrip_amended :
    (∀ a d : Int, 0 ≤ a → 0 ≤ d →
      decodeFixedPoint (formatAtomicAmount a d) d.toNat = a) ∧
    (∀ a d : Int, 0 ≤ a → 0 ≤ d → ((10 : Int) ^ d.toNat) ∣ a →
      safeParseAtomic (RawValue.rstr (formatAtomicAmount a d)) =
        some (a / 10 ^ d.toNat) ∧
      a / 10 ^ d.toNat * 10 ^ d.toNat = a) := by
  refine ⟨decode_format, ?_⟩
  intro a d ha hd hdvd
  exact ⟨safeParseAtomic_format_of_dvd a d ha hd hdvd, Int.ediv_mul_cancel hdvd⟩

/-- Witness for the amended claim C2 at concrete inputs. -/
theorem claim_C2_witness :
    decodeFixedPoint (formatAtomicAmount 1234567 6) 6 = 1234567 ∧
    safeParseAtomic (RawValue.rstr (formatAtomicAmount 1000000 6)) = some 1 := by
  constructor
  · exact claim_C2_roundtrip_amended.1 1234567 6 (by decide) (by decide)
  · have h := (claim_C2_roundtrip_amended.2 1000000 6 (by decide) (by decide)
      (by decide)).1
    have hv : (1000000 : Int) / 10 ^ (6 : Int).toNat = 1 := by decide
    rw [hv] at h
    exact h

/-- Claim C3: after every `recordSettlement` call the totals map, queried at
the grouping key of any asset and decimals pair, holds exactly the sum of
the retained window entries of that pair (and no bucket otherwise); keys of
equal assets with different decimals never coincide, so such entries are
never merged; and three 100, 200, 300 inserts for one pair inside the
window yield total 600 and count 3. -/
theorem claim_C3_recordSettlement_totals :
    (∀ (now : Int) (asset : String) (decimals amount : Int) (w : Window)
       (a : String) (d : Int),
      List.lookup (totalsKey a d) (recordSettlement now asset decimals amount w).2.1 =
        (if (recordSettlement now asset decimals amount w).1.any
            (fun e => e.asset == a && e.decimals == d)
         then some ⟨a, d, groupSum (recordSettlement now asset decimals amount w).1 a d⟩
         else none)) ∧
    (∀ (a : String) (d1 d2 : Int), d1 ≠ d2 → totalsKey a d1 ≠ totalsKey a d2) ∧
    (List.lookup (totalsKey "A" 6)
        (recordSettlement 2 "A" 6 300
          (recordSettlement 1 "A" 6 200
            (recordSettlement 0 "A" 6 100 []).1).1).2.1 = some ⟨"A", 6, 600⟩ ∧
      (recordSettlement 2 "A" 6 300
        (recordSettlement 1 "A" 6 200
          (recordSettlement 0 "A" 6 100 []).1).1).2.2 = 3) := by
  refine ⟨?_, ?_, by decide, by decide⟩
  · intro now asset decimals amount w a d
    rw [recordSettlement_def]
    exact lookup_buildTotals _ a d
  · intro a d1 d2 hne hkey
    exact hne (totalsKey_inj hkey).2

/-- Witness for claim C3 at concrete inputs. -/
theorem claim_C3_witness :
    totalsKey "A" 6 ≠ totalsKey "A" 7 ∧
    List.lookup (totalsKey "B" 2) (recordSettlement 5 "B" 2 42 []).2.1 =
      (if (recordSettlement 5 "B" 2 42 []).1.any
          (fun e => e.asset == "B" && e.decimals == 2)
       then some ⟨"B", 2, groupSum (recordSettlement 5 "B" 2 42 []).1 "B" 2⟩
       else none) :=
  ⟨claim_C3_recordSettlement_totals.2.1 "A" 6 7 (by decide),
   claim_C3_recordSettlement_totals.1 5 "B" 2 42 [] "B" 2⟩

/-- Claim C4: on a window whose entries are in timestamp order with
timestamps at most `now` (the documented queue invariant), a
`recordSettlement` call appends the entry and removes entries only from the
front (the result is a suffix of the appended sequence), and afterwards
every retained entry is at most 24 hours old relative to `now`. -/
theorem claim_C4_prune_invariant
    (now : Int) (asset : String) (decimals amount : Int) (w : Window)
    (hsorted : List.Pairwise (fun e1 e2 => e1.timestamp ≤ e2.timestamp) w)
    (hle : ∀ e ∈ w, e.timestamp ≤ now) :
    (∃ k, (recordSettlement now asset decimals amount w).1 =
      (w ++ [(⟨now, asset, decimals, amount⟩ : SettlementEntry)]).drop k) ∧
    (∀ e ∈ (recordSettlement now asset decimals amount w).1,
      now - MS_IN_DAY ≤ e.timestamp) := by
  rw [recordSettlement_def]
  constructor
  · rw [pruneSettlementWindow_def]
    exact ⟨((w ++ [(⟨now, asset, decimals, amount⟩ : SettlementEntry)]).takeWhile
      (fun e => decide (e.timestamp < now - MS_IN_DAY))).length,
      dropWhile_eq_drop_length _ _⟩
  · intro e he
    rw [pruneSettlementWindow_def] at he
    refine pairwise_le_dropWhile_lt (now - MS_IN_DAY)
      (w ++ [(⟨now, asset, decimals, amount⟩ : SettlementEntry)]) ?_ e he
    rw [List.pairwise_append]
    refine ⟨hsorted, List.pairwise_singleton _ _, ?_⟩
    intro x hx b hb
    rw [List.mem_singleton] at hb
    subst hb
    exact hle x hx

/-- Witness for claim C4 at concrete inputs. -/
theorem claim_C4_witness :
    (∃ k, (recordSettlement 5 "A" 6 1 [(⟨0, "A", 6, 2⟩ : SettlementEntry)]).1 =
      ([(⟨0, "A", 6, 2⟩ : SettlementEntry)] ++
        [(⟨5, "A", 6, 1⟩ : SettlementEntry)]).drop k) ∧
    (∀ e ∈ (recordSettlement 5 "A" 6 1 [(⟨0, "A", 6, 2⟩ : SettlementEntry)]).1,
      5 - MS_IN_DAY ≤ e.timestamp) :=
  claim_C4_prune_invariant 5 "A" 6 1 [(⟨0, "A", 6, 2⟩ : SettlementEntry)]
    (List.pairwise_singleton _ _) (by decide)

/-- Claim C5 counterexample as stated: the string consisting of one space
is a non-empty string, yet the resolver does not use it as the address; it
falls through to the unknown fallback because the source tests the string
only after trimming. -/
theorem claim_C5_counterexample :
    resolveAssetInfo (AssetField.str " ") ExtraField.missing = ("unknown", 6) ∧
    (" " : String) ≠ "" ∧ ("unknown" : String) ≠ " " :=
  ⟨by decide, by decide, by decide⟩

/-- Claim C5 (amended): the resolver follows the stated precedence with two
refinements forced by the source: in the structured branch a null or
undefined address value resolves to the string unknown rather than its
stringification, and the string branch requires the string to be non-blank
after trimming (a whitespace-only asset string falls to the unknown
fallback, keeping the default or overridden decimals).  The decimals
override wins in every branch, as the final conjunct checks on the listed
example. -/
theorem claim_C5_resolveAssetInfo_amended :
    (∀ (asset : AssetField) (n : Int),
      (resolveAssetInfo asset (ExtraField.obj (JLite.jnum n))).2 = n) ∧
    (∀ (o : AssetObj) (extra : ExtraField), o.hasAddress = true →
      (resolveAssetInfo (AssetField.obj o) extra).1 =
        (match o.address with
         | JLite.jundef => "unknown"
         | JLite.jnull => "unknown"
         | v => jsStringOf v)) ∧
    (∀ (o : AssetObj), o.hasAddress = true →
      (resolveAssetInfo (AssetField.obj o) ExtraField.missing).2 =
        (match o.decimals with
         | JLite.jnum m => m
         | _ => DEFAULT_DECIMALS)) ∧
    (∀ (s : String) (extra : ExtraField), jsTrim s.data ≠ [] →
      (resolveAssetInfo (AssetField.str s) extra).1 = s) ∧
    (∀ (s : String), jsTrim s.data = [] →
      resolveAssetInfo (AssetField.str s) ExtraField.missing =
        ("unknown", DEFAULT_DECIMALS)) ∧
    (resolveAssetInfo AssetField.jundef ExtraField.missing =
        ("unknown", DEFAULT_DECIMALS) ∧
      resolveAssetInfo AssetField.jnull ExtraField.missing =
        ("unknown", DEFAULT_DECIMALS)) ∧
    (∀ (o : AssetObj), o.hasAddress = false →
      resolveAssetInfo (AssetField.obj o) ExtraField.missing =
        ("unknown", DEFAULT_DECIMALS)) ∧
    resolveAssetInfo (AssetField.obj ⟨true, JLite.jstr "A", JLite.jnum 2⟩)
      (ExtraField.obj (JLite.jnum 9)) = ("A", 9) := by
  refine ⟨?_, ?_, ?_, ?_, ?_, ⟨rfl, rfl⟩, ?_, by decide⟩
  · intro asset n
    cases asset with
    | jundef => rfl
    | jnull => rfl
    | str s =>
      simp only [resolveAssetInfo]
      by_cases h : jsTrim s.data ≠ []
      · rw [if_pos h]
        rfl
      · rw [if_neg h]
        rfl
    | obj o =>
      simp only [resolveAssetInfo]
      by_cases h : o.hasAddress = true
      · rw [if_pos h]
        rfl
      · rw [if_neg h]
        rfl
  · intro o extra h
    cases extra with
    | missing =>
      simp only [resolveAssetInfo]
      rw [if_pos h]
    | obj v =>
      simp only [resolveAssetInfo]
      rw [if_pos h]
  · intro o h
    simp only [resolveAssetInfo]
    rw [if_pos h]
    rfl
  · intro s extra h
    cases extra with
    | missing =>
      simp only [resolveAssetInfo]
      rw [if_pos h]
    | obj v =>
      simp only [resolveAssetInfo]
      rw [if_pos h]
  · intro s h
    simp only [resolveAssetInfo]
    rw [if_neg (by simpa using h)]
    rfl
  · intro o h
    simp only [resolveAssetInfo]
    rw [if_neg (by simp [h])]
    rfl

/-- Witness for the amended claim C5 at concrete inputs. -/
theorem claim_C5_witness :
    (resolveAssetInfo (AssetField.obj ⟨true, JLite.jnull, JLite.jnum 2⟩)
      ExtraField.missing).1 = "unknown" ∧
    (resolveAssetInfo (AssetField.str "addr") ExtraField.missing).1 = "addr" :=
  ⟨claim_C5_resolveAssetInfo_amended.2.1 ⟨true, JLite.jnull, JLite.jnum 2⟩
      ExtraField.missing rfl,
   claim_C5_resolveAssetInfo_amended.2.2.2.1 "addr" ExtraField.missing (by decide)⟩

/-- Claim C6: when the settlement amount fails to parse, the settlement
event path records nothing, the window is returned unchanged, and the
receipt is still returned as the successful response. -/
theorem claim_C6_parse_failure_frame
    (pr : ReqModel) (receipt : String) (now : Int) (w : Window)
    (h : safeParseAtomic pr.maxAmountRequired = none) :
    settleRouteAfterSettle pr receipt now w = (SettleResponse.ok receipt, w) := by
  unfold settleRouteAfterSettle logSettlementEventWindow
  rw [h]

/-- Witness for claim C6 at concrete inputs. -/
theorem claim_C6_witness :
    settleRouteAfterSettle
      ⟨AssetField.str "X", ExtraField.missing, RawValue.rstr "abc"⟩
      "receipt" 0 [] = (SettleResponse.ok "receipt", []) :=
  claim_C6_parse_failure_frame _ "receipt" 0 [] (by decide)

/-- Claim C7: across any sequence of `getSigner` calls starting from the
empty cache (any interleaving of concurrent callers, since the check-and-set
has no internal suspension), signer creation runs at most once per network
and every call for a network returns the same handle. -/
theorem claim_C7_single_flight :
    ∀ (calls : List String) (network : String),
      (runGetSigner calls initialSignerState).2.creations.count network ≤ 1 ∧
      (∀ p q : String × Nat,
        p ∈ (runGetSigner calls initialSignerState).1 →
        q ∈ (runGetSigner calls initialSignerState).1 →
        p.1 = network → q.1 = network → p.2 = q.2) := by
  intro calls network
  constructor
  · have hinv := runGetSigner_preserves_inv calls initialSignerState signerInv_initial
    have hcount := hinv network
    rw [hcount]
    by_cases h : (List.lookup network
        (runGetSigner calls initialSignerState).2.cache).isSome = true
    · rw [if_pos h]
    · rw [if_neg h]
      omega
  · intro p q hp hq hpn hqn
    have h1 := runGetSigner_results_cached calls initialSignerState p hp
    have h2 := runGetSigner_results_cached calls initialSignerState q hq
    rw [hpn] at h1
    rw [hqn] at h2
    rw [h1] at h2
    exact Option.some.inj h2

/-- Witness for claim C7 at concrete inputs. -/
theorem claim_C7_witness :
    (runGetSigner ["solana", "solana"] initialSignerState).2.creations.count
      "solana" ≤ 1 ∧
    (("solana", 0) : String × Nat).2 = (("solana", 0) : String × Nat).2 :=
  ⟨(claim_C7_single_flight ["solana", "solana"] "solana").1,
   (claim_C7_single_flight ["solana", "solana"] "solana").2
     ("solana", 0) ("solana", 0) (by decide) (by decide) rfl rfl⟩

/-- Claim C8: `safeParseAtomic` returns none, rather than raising, on the
empty string, on every non-finite numeric input, and on any string whose
trimmed form the integer conversion rejects; it returns the exact integer
for bigint inputs and well-formed integer strings (unsigned or negative),
and truncates finite numeric inputs toward zero. -/
theorem claim_C8_safeParseAtomic :
    safeParseAtomic (RawValue.rstr "") = none ∧
    (safeParseAtomic RawValue.rnan = none ∧
     safeParseAtomic RawValue.rposInf = none ∧
     safeParseAtomic RawValue.rnegInf = none) ∧
    (∀ s : String, parseBigInt (jsTrim s.data) = none →
      safeParseAtomic (RawValue.rstr s) = none) ∧
    (∀ n : Int, safeParseAtomic (RawValue.rbig n) = some n) ∧
    (∀ l : List Char, l ≠ [] → (∀ c ∈ l, isDigitChar c = true) →
      safeParseAtomic (RawValue.rstr (String.mk l)) = some ((digitsVal l : Int))) ∧
    (∀ l : List Char, l ≠ [] → (∀ c ∈ l, isDigitChar c = true) →
      safeParseAtomic (RawValue.rstr (String.mk ('-' :: l))) =
        some (-(digitsVal l : Int))) ∧
    (∀ q : ℚ, safeParseAtomic (RawValue.rnum q) = some (jsTrunc q)) := by
  refine ⟨by decide, ⟨by decide, by decide, by decide⟩, ?_, fun n => rfl,
    safeParseAtomic_of_digit_string, safeParseAtomic_of_neg_digit_string,
    fun q => rfl⟩
  intro s h
  show parseTrimmed s = none
  unfold parseTrimmed
  by_cases he : jsTrim s.data = []
  · rw [if_pos he]
  · rw [if_neg he]
    exact h

/-- Witness for claim C8 at concrete inputs. -/
theorem claim_C8_witness :
    safeParseAtomic (RawValue.rstr "12a") = none ∧
    safeParseAtomic (RawValue.rstr (String.mk ['4', '2'])) = some 42 ∧
    safeParseAtomic (RawValue.rstr (String.mk ('-' :: ['5']))) = some (-5) := by
  refine ⟨claim_C8_safeParseAtomic.2.2.1 "12a" (by decide), ?_, ?_⟩
  · exact claim_C8_safeParseAtomic.2.2.2.2.1 ['4', '2'] (by decide) (by decide)
  · exact claim_C8_safeParseAtomic.2.2.2.2.2.1 ['5'] (by decide) (by decide)

/-- Claim C9: `safeParseAtomic` returns none on null and undefined, and on
whitespace-only strings, because the string is trimmed before the emptiness
check and before conversion, so a spaced integer string still parses; and no
input produces anything but none or an integer (the try-catch keeps the
function total). -/
theorem claim_C9_safeParseAtomic_nullish :
    safeParseAtomic RawValue.rnull = none ∧
    safeParseAtomic RawValue.rundef = none ∧
    (∀ l : List Char, (∀ c ∈ l, isJsWhitespace c = true) →
      safeParseAtomic (RawValue.rstr (String.mk l)) = none) ∧
    safeParseAtomic (RawValue.rstr " 123 ") = some 123 ∧
    (∀ raw : RawValue, safeParseAtomic raw = none ∨
      ∃ n : Int, safeParseAtomic raw = some n) := by
  refine ⟨rfl, rfl, ?_, by decide, ?_⟩
  · intro l h
    show parseTrimmed (String.mk l) = none
    unfold parseTrimmed
    have h1 : jsTrim (String.mk l).data = [] := by
      show jsTrim l = []
      unfold jsTrim
      rw [dropWhile_all_true l _ h]
      rfl
    rw [h1, if_pos rfl]
  · intro raw
    cases h : safeParseAtomic raw with
    | none => exact Or.inl rfl
    | some n => exact Or.inr ⟨n, rfl⟩

/-- Witness for claim C9 at concrete inputs. -/
theorem claim_C9_witness :
    safeParseAtomic (RawValue.rstr (String.mk [' ', ' '])) = none :=
  claim_C9_safeParseAtomic_nullish.2.2.1 [' ', ' '] (by decide)

/-- Claim C10: `recordSettlement` never prunes the entry it has just
appended, and the returned count is at least one after every call. -/
theorem claim_C10_new_entry_retained :
    ∀ (now : Int) (asset : String) (decimals amount : Int) (w : Window),
      (⟨now, asset, decimals, amount⟩ : SettlementEntry) ∈
        (recordSettlement now asset decimals amount w).1 ∧
      1 ≤ (recordSettlement now asset decimals amount w).2.2 := by
  intro now asset decimals amount w
  rw [recordSettlement_def, pruneSettlementWindow_def]
  have hmem : (⟨now, asset, decimals, amount⟩ : SettlementEntry) ∈
      (w ++ [(⟨now, asset, decimals, amount⟩ : SettlementEntry)]).dropWhile
        (fun e => decide (e.timestamp < now - MS_IN_DAY)) := by
    apply mem_dropWhile_of_pred_false
    · exact List.mem_append_right w (List.mem_cons_self _ _)
    · apply decide_eq_false
      show ¬ (now < now - MS_IN_DAY)
      unfold MS_IN_DAY
      omega
  refine ⟨hmem, ?_⟩
  exact List.length_pos.mpr (List.ne_nil_of_mem hmem)

end DexterX402
